import Mathlib

/-!
Verification of the Basalt-Viscosity ingestion-normalization-grouping pipeline.

The definitions below are a shallow embedding of the TypeScript source:
* `fuzzyGet`, `fuzzyGetStr`, `processImportedData`, `handleFileUploadCsv`
  from `src/components/ProjectBuilder.tsx`;
* `getCompositionSignature`, `groupedData`, `currentData` and the two
  selection effects from `src/components/DataView.tsx`;
* the data-loaded callback of `src/App.tsx` (`applyImportResult`).

JS numbers are modelled as `ℚ` (the pipeline only re-parses decimal text, so
no claim depends on binary floating point); JS strings as Lean `String`, with
character-level helpers (`lowerChars`, `hasSub`, `splitCh`, `trimChars`)
standing for `toLowerCase` / `includes` / `split` / `trim`; a cell of a
decoded row is a `CellVal` (number, string, or `undefined`); a row object is
an ordered association list, matching JS object key-enumeration order.
-/

/-- ASCII lowering of a character list; models `String.prototype.toLowerCase`
for the ASCII column names this pipeline sees. -/
def lowerChars (l : List Char) : List Char := l.map Char.toLower

/-- Returns true when the second list is a leading segment of the first. -/
def leadsWith : List Char → List Char → Bool
  | [], _ => true
  | _ :: _, [] => false
  | a :: as, b :: bs => a == b && leadsWith as bs

/-- Substring containment on character lists: `hasSub hay needle` models
`hay.includes(needle)` in JS. -/
def hasSub (hay needle : List Char) : Bool :=
  if leadsWith needle hay then true
  else
    match hay with
    | [] => false
    | _ :: t => hasSub t needle

/-- Splits a character list at every occurrence of the separator character,
modelling `String.prototype.split` with a one-character separator
(`"".split(c) = [""]`, trailing separators yield trailing empty pieces). -/
def splitCh (c : Char) : List Char → List (List Char)
  | [] => [[]]
  | a :: t =>
    let r := splitCh c t
    if a == c then [] :: r
    else
      match r with
      | [] => [[a]]
      | h :: t2 => (a :: h) :: t2

/-- Removes leading and trailing whitespace, modelling `String.prototype.trim`. -/
def trimChars (l : List Char) : List Char :=
  ((l.dropWhile Char.isWhitespace).reverse.dropWhile Char.isWhitespace).reverse

/-- One scalar cell of a decoded spreadsheet/CSV row: a number, a string, or
JS `undefined` (which a ragged CSV line produces for unmatched headers). -/
inductive CellVal where
  | num (q : ℚ)
  | str (s : String)
  | undef
deriving DecidableEq

/-- A decoded row object: an ordered association list of column name to cell,
in JS object key-enumeration (insertion) order. -/
abbrev RowObj := List (String × CellVal)

/-- Digit-list to number accumulator used by the decimal parser. -/
def digitsToNat (l : List Char) : ℕ := l.foldl (fun a c => a * 10 + (c.toNat - 48)) 0

/-- Parses an unsigned decimal prefix (`123`, `123.45`, `.5`, `12.`); returns
`none` when no digit is present. Trailing garbage is ignored, as in JS. -/
def parseUnsignedDec (cs : List Char) : Option ℚ :=
  let ip := cs.takeWhile Char.isDigit
  let rest := cs.dropWhile Char.isDigit
  match rest with
  | '.' :: r2 =>
    let fp := r2.takeWhile Char.isDigit
    if ip.isEmpty && fp.isEmpty then none
    else some ((digitsToNat ip : ℚ) + (digitsToNat fp : ℚ) / (10 : ℚ) ^ fp.length)
  | _ => if ip.isEmpty then none else some (digitsToNat ip)

/-- Models the JS builtin `parseFloat` on the decimal core it is used for here:
skip leading whitespace, optional sign, decimal digits with optional fraction;
`none` stands for `NaN`. (The builtin additionally accepts exponents and
`"Infinity"`, which no column of this pipeline produces.) -/
def jsParseFloat (s : String) : Option ℚ :=
  let cs := s.data.dropWhile Char.isWhitespace
  match cs with
  | '-' :: r => (parseUnsignedDec r).map (fun q => -q)
  | '+' :: r => parseUnsignedDec r
  | _ => parseUnsignedDec cs

/-- `parseFloat` applied to a row cell: a numeric cell parses to itself
(its decimal rendering re-parses to the same rational), a string cell goes
through the decimal parser, `undefined` parses to `NaN` (`none`). -/
def parseFloatV : CellVal → Option ℚ
  | .num q => some q
  | .str s => jsParseFloat s
  | .undef => none

/-- `String(v)` applied to a row cell (only the label resolver uses this). -/
def strOfCellVal : CellVal → String
  | .num q => toString q
  | .str s => s
  | .undef => "undefined"

/-- JS `a || b` on numbers as used by the normalizer: the fallback is taken
exactly when the first operand is `0` (the resolvers never return `NaN`). -/
def jsOrQ (a b : ℚ) : ℚ := if a = 0 then b else a

/-- JS `a || b` on strings: the fallback is taken when the first is empty. -/
def jsOrS (a b : String) : String := if a = "" then b else a

/-- The fuzzy key match of `fuzzyGet`: the key's lowercased form contains the
lowercased `keyPart` (`k.toLowerCase().includes(keyPart.toLowerCase())`). -/
def keyMatches (kv : String × CellVal) (keyPart : String) : Bool :=
  hasSub (lowerChars kv.1.data) (lowerChars keyPart.data)

/-- `fuzzyGet` from `ProjectBuilder.tsx`: find the first key of the row whose
lowercased form contains the lowercased `keyPart`, parse its value with
`parseFloat`, and return `0` on a parse failure (`isNaN`) or when no key
matches. -/
def fuzzyGet (row : RowObj) (keyPart : String) : ℚ :=
  match row.find? (fun kv => keyMatches kv keyPart) with
  | some kv =>
    match parseFloatV kv.2 with
    | some v => v
    | none => 0
  | none => 0

/-- `fuzzyGetStr` from `ProjectBuilder.tsx`: same matching, returns the
matched value's string form, or the empty string when no key matches. -/
def fuzzyGetStr (row : RowObj) (keyPart : String) : String :=
  match row.find? (fun kv => keyMatches kv keyPart) with
  | some kv => strOfCellVal kv.2
  | none => ""

/-- One normalized measurement record, mirroring the `ChemicalData` interface
of `src/types.ts` as populated by `processImportedData`. -/
structure Sample where
  sampleID : ℕ
  SiO2 : ℚ
  Al2O3 : ℚ
  FexOy : ℚ
  Na2O : ℚ
  K2O : ℚ
  CaO : ℚ
  MgO : ℚ
  TiO2 : ℚ
  temperature : ℚ
  viscosityValue : ℚ
  Remark : String
  actualMeasuredData : ℕ
deriving DecidableEq

/-- The per-row build of `processImportedData` (`rawData.map((row, idx) => ...)`),
with `n` the 1-based row number (`idx + 1`). -/
def mkSample (n : ℕ) (row : RowObj) : Sample where
  sampleID := n
  SiO2 := fuzzyGet row "SiO2"
  Al2O3 := fuzzyGet row "Al2O3"
  FexOy := jsOrQ (fuzzyGet row "Fe") (fuzzyGet row "FexOy")
  Na2O := fuzzyGet row "Na2O"
  K2O := fuzzyGet row "K2O"
  CaO := fuzzyGet row "CaO"
  MgO := fuzzyGet row "MgO"
  TiO2 := fuzzyGet row "TiO2"
  temperature := jsOrQ (fuzzyGet row "temp") (fuzzyGet row "temperature")
  viscosityValue :=
    jsOrQ (jsOrQ (fuzzyGet row "viscosity") (fuzzyGet row "log10")) (fuzzyGet row "Value")
  Remark := jsOrS (jsOrS (fuzzyGetStr row "remark") (fuzzyGetStr row "source")) (fuzzyGetStr row "name")
  actualMeasuredData := 1

/-- The indexed map underlying `parsedData`: row at 0-based position `i` is
built with `sampleID = i + 1`, realized by starting the counter at 1. -/
def mkSamplesFrom (n : ℕ) : List RowObj → List Sample
  | [] => []
  | r :: t => mkSample n r :: mkSamplesFrom (n + 1) t

/-- `parsedData` of `processImportedData`: one `Sample` per input row. -/
def parsedData (rows : List RowObj) : List Sample := mkSamplesFrom 1 rows

/-- The acceptance predicate of the filter in `processImportedData`:
`d.temperature > 0 && (d.viscosityValue !== 0 || d.SiO2 !== 0)`. -/
def acceptSample (s : Sample) : Bool :=
  decide (0 < s.temperature) && (decide (s.viscosityValue ≠ 0) || decide (s.SiO2 ≠ 0))

/-- `validData` of `processImportedData`: the accepted samples, in order. -/
def validData (rows : List RowObj) : List Sample :=
  (parsedData rows).filter acceptSample

/-- Outcome of `processImportedData` at its public boundary: either the
accepted samples are handed to `onDataLoaded` together with the
`onConnect("Imported File", "Found N rows")` provenance pair, or the
zero-accepted-rows alert is raised (no callback fires). -/
inductive ImportResult where
  | loaded (data : List Sample) (host db : String)
  | emptyAlert
deriving DecidableEq

/-- `processImportedData` from `ProjectBuilder.tsx` (its body is pure and
total, so the surrounding `try/catch` branch is unreachable). -/
def processImportedData (rows : List RowObj) : ImportResult :=
  let v := validData rows
  if v.length > 0 then
    ImportResult.loaded v "Imported File" ("Found " ++ toString v.length ++ " rows")
  else
    ImportResult.emptyAlert

/-- The data-loaded callback of `App.tsx` (`handleDataLoaded` is the only
place the displayed data is set): a loaded result replaces the displayed
data, the empty-result alert leaves it unchanged. -/
def applyImportResult (prev : List Sample) : ImportResult → List Sample
  | .loaded d _ _ => d
  | .emptyAlert => prev

/-- The decimal digit character for `d < 10`. -/
def digitCh (d : ℕ) : Char := Char.ofNat (48 + d)

/-- Fuel-indexed base-10 digit rendering (most significant digit first);
`natCharsAux f n` renders `n` when `n ≤ f`. -/
def natCharsAux : ℕ → ℕ → List Char
  | 0, _ => []
  | f + 1, n => if n = 0 then [] else natCharsAux f (n / 10) ++ [digitCh (n % 10)]

/-- Digit rendering of a positive natural (empty for 0). -/
def natCharsCore (n : ℕ) : List Char := natCharsAux n n

/-- Decimal rendering of a natural number, as JS renders the integral part of
a `toFixed` result (`0` renders as `"0"`). -/
def natChars (n : ℕ) : List Char := if n = 0 then ['0'] else natCharsCore n

/-- Character rendering of `(n / 100).(n % 100)` with the fraction zero-padded
to exactly two digits: the `toFixed(2)` output for magnitude `n / 100`. -/
def fchars (n : ℕ) : List Char :=
  natChars (n / 100) ++ ['.', digitCh (n % 100 / 10), digitCh (n % 10)]

/-- The integer `100 * x` rounded as `Number.prototype.toFixed(2)` rounds:
nearest, ties away from zero (the sign is handled on the magnitude). -/
def round2 (q : ℚ) : ℤ :=
  if q < 0 then -⌊-q * 100 + 1 / 2⌋ else ⌊q * 100 + 1 / 2⌋

/-- Character-level model of `q.toFixed(2)`. -/
def toFixed2Chars (q : ℚ) : List Char :=
  if q < 0 then '-' :: fchars (⌊-q * 100 + 1 / 2⌋).toNat
  else fchars (⌊q * 100 + 1 / 2⌋).toNat

/-- One component of the composition signature: `(row.F || 0).toFixed(2)`. -/
def sigPiece (q : ℚ) : List Char := toFixed2Chars (jsOrQ q 0)

/-- The eight composition fields, in the fixed order the signature template
concatenates them. -/
def compFields (s : Sample) : List ℚ :=
  [s.SiO2, s.Al2O3, s.FexOy, s.Na2O, s.K2O, s.CaO, s.MgO, s.TiO2]

/-- Joins rendered pieces with the `'-'` separator of the signature template. -/
def joinDash : List (List Char) → List Char
  | [] => []
  | [p] => p
  | p :: ps => p ++ '-' :: joinDash ps

/-- `getCompositionSignature` from `DataView.tsx`: the eight composition
fields, each `(… || 0).toFixed(2)`, concatenated with `-` separators. -/
def getCompositionSignature (s : Sample) : String :=
  String.mk (joinDash ((compFields s).map sigPiece))

/-- Grouped samples: an ordered association list from signature to the
samples carrying it, standing for the JS `Record<string, ChemicalData[]>`
(string keys of this shape enumerate in insertion order). -/
abbrev Groups := List (String × List Sample)

/-- Appends a sample to the group of its signature, creating the group at the
end on first contact (`if (!groups[sig]) groups[sig] = []; groups[sig].push(row)`). -/
def insertGroup (gs : Groups) (sig : String) (s : Sample) : Groups :=
  match gs with
  | [] => [(sig, [s])]
  | (k, v) :: t => if k = sig then (k, v ++ [s]) :: t else (k, v) :: insertGroup t sig s

/-- The `data.forEach` accumulation inside the `groupedData` memo. -/
def groupedDataAux (acc : Groups) : List Sample → Groups
  | [] => acc
  | s :: t => groupedDataAux (insertGroup acc (getCompositionSignature s) s) t

/-- `groupedData` from `DataView.tsx`: partition the current samples by
composition signature (empty data gives the empty record). -/
def groupedData (data : List Sample) : Groups := groupedDataAux [] data

/-- Property lookup `groups[sig]` on the grouped record. -/
def lookupGroups (gs : Groups) (sig : String) : Option (List Sample) :=
  (gs.find? (fun p => p.1 == sig)).map (fun p => p.2)

/-- `Object.keys(groupedData)`: the signatures in insertion order. -/
def groupKeys (gs : Groups) : List String := gs.map (fun p => p.1)

/-- First effect of `DataView` (declared first, runs on every render): keep a
still-valid non-empty selection, otherwise select the first key; clear the
selection when there are no groups. -/
def effectKeepValid (keys : List String) (sel : String) : String :=
  match keys with
  | [] => ""
  | k :: rest => if sel == "" || !((k :: rest).contains sel) then k else sel

/-- Second effect of `DataView` (runs when the `data` reference changes):
unconditionally select the first key when any group exists. -/
def effectResetFirst (keys : List String) (sel : String) : String :=
  match keys with
  | [] => sel
  | k :: _ => k

/-- The selection state after a render commit: the declared effects run in
order, the reset effect firing only on a wholesale `data` replacement; a
re-render after either set leaves the result fixed. -/
def applyDataViewEffects (dataChanged : Bool) (keys : List String) (sel : String) : String :=
  let s1 := effectKeepValid keys sel
  if dataChanged then effectResetFirst keys s1 else s1

/-- Insertion of a sample into a temperature-sorted list, after every element
it does not strictly precede: the position a stable ascending sort gives it. -/
def insertByTemp (x : Sample) : List Sample → List Sample
  | [] => [x]
  | a :: t => if x.temperature < a.temperature then x :: a :: t else a :: insertByTemp x t

/-- Ascending stable sort by `temperature`, the result of
`[...group].sort((a, b) => a.temperature - b.temperature)` (ES2019 requires
`Array.prototype.sort` to be stable). -/
def sortByTemp (l : List Sample) : List Sample :=
  l.foldl (fun acc x => insertByTemp x acc) []

/-- `currentData` from `DataView.tsx`: the selected group sorted ascending by
temperature; empty when no selection or the signature is absent. -/
def currentData (gs : Groups) (sel : String) : List Sample :=
  if sel = "" then []
  else
    match lookupGroups gs sel with
    | none => []
    | some l => sortByTemp l

/-- Replaces the value of an existing key in place, or appends a new binding:
JS property assignment `obj[h] = v` while building a row object. -/
def upsertRow (r : RowObj) (k : String) (v : CellVal) : RowObj :=
  match r with
  | [] => [(k, v)]
  | (k2, v2) :: t => if k2 = k then (k, v) :: t else (k2, v2) :: upsertRow t k v

/-- `headers.forEach((h, i) => obj[h] = values[i])`: positional pairing of
headers with values, missing values becoming `undefined`. -/
def buildRowObj : RowObj → List String → List String → RowObj
  | r, [], _ => r
  | r, h :: hs, [] => buildRowObj (upsertRow r h CellVal.undef) hs []
  | r, h :: hs, v :: vs => buildRowObj (upsertRow r h (CellVal.str v)) hs vs

/-- The CSV decoding of `handleFileUpload`: the first (non-empty) line gives
trimmed headers, each further line is split on commas (values untrimmed)
and paired positionally with the headers. -/
def csvRowsToObjects (rows : List (List Char)) : List RowObj :=
  match rows with
  | [] => []
  | h :: t =>
    let headers := (splitCh ',' h).map (fun c => String.mk (trimChars c))
    t.map (fun line => buildRowObj [] headers ((splitCh ',' line).map String.mk))

/-- The delimited-text (non-Excel) branch of `handleFileUpload`, given the
decoded file text: `none` models an early `return` with no user-visible
effect at all; `some r` models a call of `processImportedData`. -/
def handleFileUploadCsv (text : String) : Option ImportResult :=
  if text = "" then none
  else
    let rows := (splitCh '\n' text.data).filter (fun r => !(trimChars r).isEmpty)
    if rows.length < 2 then none
    else some (processImportedData (csvRowsToObjects rows))

/-- Keeps the first occurrence of every key, in order of first appearance:
the shape `Object.keys` has for a record filled by first-contact insertion. -/
def firstSeenKeys (seen : List String) : List String → List String
  | [] => []
  | k :: t => if seen.contains k then firstSeenKeys seen t else k :: firstSeenKeys (k :: seen) t

/-- All eight composition fields are non-negative, the range the data model
gives weight-percent oxide contents. -/
def compNonneg (s : Sample) : Prop :=
  0 ≤ s.SiO2 ∧ 0 ≤ s.Al2O3 ∧ 0 ≤ s.FexOy ∧ 0 ≤ s.Na2O ∧
  0 ≤ s.K2O ∧ 0 ≤ s.CaO ∧ 0 ≤ s.MgO ∧ 0 ≤ s.TiO2

/-- The eight composition fields agree after rounding to 2 decimal digits. -/
def roundedCompEq (a b : Sample) : Prop :=
  round2 a.SiO2 = round2 b.SiO2 ∧ round2 a.Al2O3 = round2 b.Al2O3 ∧
  round2 a.FexOy = round2 b.FexOy ∧ round2 a.Na2O = round2 b.Na2O ∧
  round2 a.K2O = round2 b.K2O ∧ round2 a.CaO = round2 b.CaO ∧
  round2 a.MgO = round2 b.MgO ∧ round2 a.TiO2 = round2 b.TiO2

/-- Two samples land in the same group of the grouper's output. -/
def sameGroup (d : List Sample) (a b : Sample) : Prop :=
  ∃ k g, lookupGroups (groupedData d) k = some g ∧ a ∈ g ∧ b ∈ g

/-- Fixture: a row with no recognizable keys (temperature resolves to 0). -/
def exRowBad : RowObj := [("foo", CellVal.str "bar")]

/-- Fixture: a row with a recognizable temperature and viscosity. -/
def exRowGood : RowObj := [("temperature", CellVal.num 1470), ("viscosity", CellVal.num 2)]

/-- Fixture: a rejected row followed by an accepted row. -/
def exRows : List RowObj := [exRowBad, exRowGood]

/-- Fixture: a sample with the given id and temperature and all other numeric
fields zero. -/
def mkPlainTemp (id : ℕ) (t : ℚ) : Sample :=
  ⟨id, 0, 0, 0, 0, 0, 0, 0, 0, t, 0, "", 1⟩

/-- Fixture: one group of three samples with temperatures 1450, 1420, 1450. -/
def exGroups : Groups :=
  [("g", [mkPlainTemp 1 1450, mkPlainTemp 2 1420, mkPlainTemp 3 1450])]

/-- The signature of a sample whose eight composition fields are all zero. -/
def zeroSig : String :=
  String.mk (joinDash [fchars 0, fchars 0, fchars 0, fchars 0,
    fchars 0, fchars 0, fchars 0, fchars 0])

/-- Fixture: two samples whose SiO2 contents differ only beyond the second
decimal place (53.500001 vs 53.4999994). -/
def exSampleP : Sample := ⟨1, 53500001/1000000, 0, 0, 0, 0, 0, 0, 0, 1470, 2, "", 1⟩

/-- Fixture: companion sample to `exSampleP`. -/
def exSampleQ : Sample := ⟨2, 534999994/10000000, 0, 0, 0, 0, 0, 0, 0, 1480, 3, "", 1⟩

/-- Fixture: the two near-equal samples as one data set. -/
def exPairData : List Sample := [exSampleP, exSampleQ]

/-- Fixture: a row where only the lowest-priority viscosity candidate hits. -/
def exRowVal : RowObj := [("Value", CellVal.num 3)]

theorem acceptSample_iff (s : Sample) :
    acceptSample s = true ↔ (0 < s.temperature ∧ (s.viscosityValue ≠ 0 ∨ s.SiO2 ≠ 0)) := by
  simp [acceptSample]

/-- Claim C1: every sample in the normalized output of `processImportedData`
satisfies `temperature > 0 AND (viscosityValue != 0 OR SiO2 != 0)`, every
per-row sample failing the predicate is absent from the output, and the data
handed over by a loaded result is exactly that filtered output. -/
theorem acceptance_invariant (rows : List RowObj) :
    (∀ s ∈ validData rows, 0 < s.temperature ∧ (s.viscosityValue ≠ 0 ∨ s.SiO2 ≠ 0))
    ∧ (∀ s ∈ parsedData rows,
        ¬(0 < s.temperature ∧ (s.viscosityValue ≠ 0 ∨ s.SiO2 ≠ 0)) → s ∉ validData rows)
    ∧ (∀ dat host db, processImportedData rows = ImportResult.loaded dat host db →
        dat = validData rows) := by
  refine ⟨?_, ?_, ?_⟩
  · intro s hs
    exact (acceptSample_iff s).mp (List.mem_filter.mp hs).2
  · intro s _ hno hmem
    exact hno ((acceptSample_iff s).mp (List.mem_filter.mp hmem).2)
  · intro dat host db h
    simp only [processImportedData] at h
    split at h
    · injection h with h1 _ _
      exact h1.symm
    · exact absurd h (by simp)

theorem acceptance_invariant_witness :
    (0 < (mkSample 2 exRowGood).temperature
      ∧ ((mkSample 2 exRowGood).viscosityValue ≠ 0 ∨ (mkSample 2 exRowGood).SiO2 ≠ 0))
    ∧ mkSample 1 exRowBad ∉ validData exRows := by
  constructor
  · exact (acceptance_invariant exRows).1 (mkSample 2 exRowGood) (by decide)
  · exact (acceptance_invariant exRows).2.1 (mkSample 1 exRowBad) (by decide) (by decide)

theorem mkSamplesFrom_get :
    ∀ (rows : List RowObj) (n i : ℕ) (h : i < (mkSamplesFrom n rows).length),
      ((mkSamplesFrom n rows).get ⟨i, h⟩).sampleID = n + i := by
  intro rows
  induction rows with
  | nil => intro n i h; simp [mkSamplesFrom] at h
  | cons r t ih =>
    intro n i h
    cases i with
    | zero => simp [mkSamplesFrom, mkSample]
    | succ j =>
      have h2 : j < (mkSamplesFrom (n + 1) t).length := by
        simpa [mkSamplesFrom] using h
      have hrec := ih (n + 1) j h2
      show ((mkSample n r :: mkSamplesFrom (n + 1) t).get ⟨j + 1, h⟩).sampleID = n + (j + 1)
      rw [List.get_cons_succ]
      omega

theorem mkSamplesFrom_id_le :
    ∀ (rows : List RowObj) (n : ℕ) (s : Sample), s ∈ mkSamplesFrom n rows → n ≤ s.sampleID := by
  intro rows
  induction rows with
  | nil => intro n s hs; simp [mkSamplesFrom] at hs
  | cons r t ih =>
    intro n s hs
    rcases List.mem_cons.mp hs with rfl | hs2
    · simp [mkSample]
    · have := ih (n + 1) s hs2
      omega

theorem mkSamplesFrom_pairwise (rows : List RowObj) :
    ∀ n, List.Pairwise (fun a b => a.sampleID < b.sampleID) (mkSamplesFrom n rows) := by
  induction rows with
  | nil => intro n; simp [mkSamplesFrom]
  | cons r t ih =>
    intro n
    refine List.Pairwise.cons ?_ (ih (n + 1))
    intro b hb
    have h1 := mkSamplesFrom_id_le t (n + 1) b hb
    have h2 : (mkSample n r).sampleID = n := rfl
    omega

/-- Claim C2 (amended): the sample at 0-based input position `i` is built with
`id = i + 1`, so the output ids are the strictly increasing 1-based positions
of the accepted rows rather than a dense `1..N` sequence. -/
theorem sample_ids_positional (rows : List RowObj) :
    (∀ i (h : i < (parsedData rows).length), ((parsedData rows).get ⟨i, h⟩).sampleID = i + 1)
    ∧ List.Pairwise (fun a b : ℕ => a < b) ((validData rows).map (fun s => s.sampleID)) := by
  constructor
  · intro i h
    have hg := mkSamplesFrom_get rows 1 i h
    show ((mkSamplesFrom 1 rows).get ⟨i, h⟩).sampleID = i + 1
    omega
  · have hp := mkSamplesFrom_pairwise rows 1
    have hsub : List.Sublist (validData rows) (parsedData rows) := List.filter_sublist _
    exact List.pairwise_map.mpr (hp.sublist hsub)

theorem sample_ids_positional_witness :
    ((parsedData exRows).get ⟨1, by decide⟩).sampleID = 2
    ∧ List.Pairwise (fun a b : ℕ => a < b) ((validData exRows).map (fun s => s.sampleID)) := by
  constructor
  · have := (sample_ids_positional exRows).1 1 (by decide)
    omega
  · exact (sample_ids_positional exRows).2

/-- Claim C2 counterexample: with a rejected first row followed by an accepted
row, the normalized output's id list is `[2]`, not the dense sequence `[1]`. -/
theorem sample_ids_not_dense :
    ¬((validData exRows).map (fun s => s.sampleID) = List.range' 1 (validData exRows).length) := by
  decide

theorem find?_decomp {α : Type} (p : α → Bool) :
    ∀ (l : List α) (a : α), l.find? p = some a →
      ∃ l1 l2, l = l1 ++ a :: l2 ∧ (∀ x ∈ l1, p x = false) ∧ p a = true := by
  intro l
  induction l with
  | nil => intro a h; simp [List.find?] at h
  | cons b t ih =>
    intro a h
    cases hb : p b with
    | true =>
      rw [List.find?_cons_of_pos _ hb] at h
      obtain rfl : b = a := by injection h
      exact ⟨[], t, rfl, by simp, hb⟩
    | false =>
      rw [List.find?_cons_of_neg _ (by simp [hb])] at h
      obtain ⟨l1, l2, rfl, h1, h2⟩ := ih a h
      refine ⟨b :: l1, l2, rfl, ?_, h2⟩
      intro x hx
      rcases List.mem_cons.mp hx with rfl | hx2
      · exact hb
      · exact h1 x hx2

/-- Claim C6: `fuzzyGet` returns the value of the first key (in the row's
native key enumeration order) whose lowercased form contains the lowercased
`keyPart`, parsed as a decimal number with `0` for a parse failure, and
returns `0` when no key matches; it is a total function, so no error ever
reaches the caller. -/
theorem fuzzyGet_first_match (row : RowObj) (keyPart : String) :
    ((∀ kv ∈ row, keyMatches kv keyPart = false) ∧ fuzzyGet row keyPart = 0)
    ∨ (∃ pre kv post,
        row = pre ++ kv :: post
        ∧ (∀ kv2 ∈ pre, keyMatches kv2 keyPart = false)
        ∧ keyMatches kv keyPart = true
        ∧ fuzzyGet row keyPart = (parseFloatV kv.2).getD 0) := by
  cases hfind : row.find? (fun kv => keyMatches kv keyPart) with
  | none =>
    left
    constructor
    · intro kv hkv
      have := List.find?_eq_none.mp hfind kv hkv
      simpa using this
    · simp [fuzzyGet, hfind]
  | some kv =>
    right
    obtain ⟨pre, post, heq, hpre, hkv⟩ := find?_decomp _ row kv hfind
    refine ⟨pre, kv, post, heq, hpre, hkv, ?_⟩
    simp only [fuzzyGet, hfind]
    cases parseFloatV kv.2 <;> simp

theorem fuzzyGet_first_match_witness :
    ((∀ kv ∈ ([("SIO2_WT", CellVal.num 53)] : RowObj), keyMatches kv "SiO2" = false)
      ∧ fuzzyGet [("SIO2_WT", CellVal.num 53)] "SiO2" = 0)
    ∨ (∃ pre kv post,
        ([("SIO2_WT", CellVal.num 53)] : RowObj) = pre ++ kv :: post
        ∧ (∀ kv2 ∈ pre, keyMatches kv2 "SiO2" = false)
        ∧ keyMatches kv "SiO2" = true
        ∧ fuzzyGet [("SIO2_WT", CellVal.num 53)] "SiO2" = (parseFloatV kv.2).getD 0) :=
  fuzzyGet_first_match [("SIO2_WT", CellVal.num 53)] "SiO2"

/-- Claim C7: the composite lookups of the normalizer try their keyPart
candidates in the fixed priority order of the source (`Fe` then `FexOy`;
`temp` then `temperature`; `viscosity`, then `log10`, then `Value`) and a
later candidate's value is used exactly when every earlier candidate
resolved to `0`. -/
theorem composite_lookup_priority (row : RowObj) (n : ℕ) :
    ((fuzzyGet row "Fe" ≠ 0 → (mkSample n row).FexOy = fuzzyGet row "Fe")
      ∧ (fuzzyGet row "Fe" = 0 → (mkSample n row).FexOy = fuzzyGet row "FexOy"))
    ∧ ((fuzzyGet row "temp" ≠ 0 → (mkSample n row).temperature = fuzzyGet row "temp")
      ∧ (fuzzyGet row "temp" = 0 → (mkSample n row).temperature = fuzzyGet row "temperature"))
    ∧ ((fuzzyGet row "viscosity" ≠ 0 →
          (mkSample n row).viscosityValue = fuzzyGet row "viscosity")
      ∧ (fuzzyGet row "viscosity" = 0 → fuzzyGet row "log10" ≠ 0 →
          (mkSample n row).viscosityValue = fuzzyGet row "log10")
      ∧ (fuzzyGet row "viscosity" = 0 → fuzzyGet row "log10" = 0 →
          (mkSample n row).viscosityValue = fuzzyGet row "Value")) := by
  refine ⟨⟨?_, ?_⟩, ⟨?_, ?_⟩, ?_, ?_, ?_⟩ <;> intro h1 <;>
    first
      | (intro h2; simp [mkSample, jsOrQ, h1, h2])
      | simp [mkSample, jsOrQ, h1]

theorem composite_lookup_priority_witness :
    (mkSample 1 exRowVal).viscosityValue = fuzzyGet exRowVal "Value" :=
  (composite_lookup_priority exRowVal 1).2.2.2.2 (by decide) (by decide)

/-- Claim C8: with zero accepted samples `processImportedData` signals the
empty-result alert (a value distinct from any loaded result, carrying no
data, so previously displayed data is unchanged); with a positive count it
hands over exactly the accepted samples together with the provenance pair
`("Imported File", "Found N rows")` where `N` is the accepted-row count;
the outcome depends only on the accepted samples, so individual row
rejections are never reported. -/
theorem empty_result_signalling (rows : List RowObj) (prev : List Sample) :
    (validData rows = [] →
      processImportedData rows = ImportResult.emptyAlert
      ∧ applyImportResult prev (processImportedData rows) = prev)
    ∧ (validData rows ≠ [] →
      processImportedData rows =
        ImportResult.loaded (validData rows) "Imported File"
          ("Found " ++ toString (validData rows).length ++ " rows")
      ∧ applyImportResult prev (processImportedData rows) = validData rows) := by
  constructor
  · intro h
    constructor
    · simp [processImportedData, h]
    · simp [processImportedData, h, applyImportResult]
  · intro h
    have hl : (validData rows).length > 0 := List.length_pos.mpr h
    constructor
    · simp [processImportedData, hl]
    · simp [processImportedData, hl, applyImportResult]

theorem empty_result_signalling_witness :
    validData [exRowBad] = []
    ∧ processImportedData [exRowBad] = ImportResult.emptyAlert
    ∧ applyImportResult [mkPlainTemp 1 1450] (processImportedData [exRowBad])
        = [mkPlainTemp 1 1450]
    ∧ processImportedData exRows =
        ImportResult.loaded (validData exRows) "Imported File"
          ("Found " ++ toString (validData exRows).length ++ " rows") := by
  refine ⟨by decide, ?_, ?_, ?_⟩
  · exact ((empty_result_signalling [exRowBad] [mkPlainTemp 1 1450]).1 (by decide)).1
  · exact ((empty_result_signalling [exRowBad] [mkPlainTemp 1 1450]).1 (by decide)).2
  · exact ((empty_result_signalling exRows []).2 (by decide)).1

/-- Claim C10: an uploaded delimited-text file whose content has fewer than
two non-empty lines makes the import a silent no-op: the handler returns
before normalization, so no callback fires and no message is signalled. -/
theorem csv_short_input_noop (text : String)
    (h : ((splitCh '\n' text.data).filter (fun r => !(trimChars r).isEmpty)).length < 2) :
    handleFileUploadCsv text = none := by
  unfold handleFileUploadCsv
  by_cases ht : text = ""
  · simp [ht]
  · simp [ht, h]

theorem csv_short_input_noop_witness :
    (((splitCh '\n' ("SiO2,temp\n" : String).data).filter
        (fun r => !(trimChars r).isEmpty)).length < 2)
    ∧ handleFileUploadCsv "SiO2,temp\n" = none :=
  ⟨by decide, csv_short_input_noop "SiO2,temp\n" (by decide)⟩

/-- Claim C5: a wholesale replacement of the sample collection always resets
the active signature to the grouping's first key, even when the previous
signature is still a key; without a replacement a still-valid non-empty
selection is preserved, and a selection that is no longer a key falls back
to the first key (the empty default when there are no keys). -/
theorem effectKeepValid_of_valid (keys : List String) (sel : String)
    (h1 : sel ∈ keys) (h2 : sel ≠ "") : effectKeepValid keys sel = sel := by
  cases keys with
  | nil => simp at h1
  | cons k t =>
    have hc : (k :: t).contains sel = true := by
      simpa [List.contains] using List.elem_iff.mpr h1
    have hbeq : (sel == "") = false := by simp [h2]
    simp only [effectKeepValid, hc, hbeq]
    simp

theorem effectKeepValid_of_not_mem (keys : List String) (sel : String)
    (h : sel ∉ keys) : effectKeepValid keys sel = keys.headD "" := by
  cases keys with
  | nil => simp [effectKeepValid]
  | cons k t =>
    have hc : (k :: t).contains sel = false := by
      cases hcc : (k :: t).contains sel with
      | true => exact absurd (List.elem_iff.mp hcc) h
      | false => rfl
    simp only [effectKeepValid, hc]
    simp

theorem selection_reset_policy (keys : List String) (sel : String) (changed : Bool) :
    (changed = true → keys ≠ [] → applyDataViewEffects changed keys sel = keys.headD "")
    ∧ (changed = false → sel ∈ keys → sel ≠ "" → applyDataViewEffects changed keys sel = sel)
    ∧ (sel ∉ keys → applyDataViewEffects changed keys sel = keys.headD "") := by
  refine ⟨?_, ?_, ?_⟩
  · rintro rfl hk
    cases keys with
    | nil => exact absurd rfl hk
    | cons k t => simp [applyDataViewEffects, effectResetFirst]
  · rintro rfl hmem hne
    show effectKeepValid keys sel = sel
    exact effectKeepValid_of_valid keys sel hmem hne
  · intro hmem
    cases changed with
    | false =>
      show effectKeepValid keys sel = keys.headD ""
      exact effectKeepValid_of_not_mem keys sel hmem
    | true =>
      show effectResetFirst keys (effectKeepValid keys sel) = keys.headD ""
      cases keys with
      | nil =>
        show effectKeepValid [] sel = ([] : List String).headD ""
        simp [effectKeepValid]
      | cons k t => simp [effectResetFirst]

theorem selection_reset_policy_witness :
    applyDataViewEffects true ["a", "b"] "b" = (["a", "b"] : List String).headD ""
    ∧ applyDataViewEffects false ["a", "b"] "b" = "b"
    ∧ applyDataViewEffects false ["a", "b"] "c" = (["a", "b"] : List String).headD "" := by
  refine ⟨?_, ?_, ?_⟩
  · exact (selection_reset_policy ["a", "b"] "b" true).1 rfl (by simp)
  · exact (selection_reset_policy ["a", "b"] "b" false).2.1 rfl (by simp) (by simp)
  · exact (selection_reset_policy ["a", "b"] "c" false).2.2 (by simp)

theorem lookupGroups_insertGroup (acc : Groups) (k2 : String) (s : Sample) (k : String) :
    lookupGroups (insertGroup acc k2 s) k =
      if k = k2 then some (((lookupGroups acc k).getD []) ++ [s])
      else lookupGroups acc k := by
  induction acc with
  | nil =>
    by_cases h : k = k2
    · subst h
      simp [insertGroup, lookupGroups]
    · have hbeq : (k2 == k) = false := beq_eq_false_iff_ne.mpr (fun hh => h hh.symm)
      simp [insertGroup, lookupGroups, hbeq, h]
  | cons p t ih =>
    obtain ⟨a, v⟩ := p
    by_cases hak : a = k2
    · subst hak
      by_cases hk : k = a
      · subst hk
        simp [insertGroup, lookupGroups]
      · have hbeq : (a == k) = false := beq_eq_false_iff_ne.mpr (fun hh => hk hh.symm)
        simp [insertGroup, lookupGroups, hbeq, hk]
    · by_cases hk : k = a
      · subst hk
        simp [insertGroup, lookupGroups, hak]
      · have hbeq : (a == k) = false := beq_eq_false_iff_ne.mpr (fun hh => hk hh.symm)
        simp only [insertGroup, if_neg hak]
        have step : ∀ (l : List (String × List Sample)),
            lookupGroups ((a, v) :: l) k = lookupGroups l k := by
          intro l
          simp [lookupGroups, List.find?, hbeq]
        simp only [step]
        exact ih

theorem lookupGroups_groupedDataAux :
    ∀ (d : List Sample) (acc : Groups) (k : String),
      lookupGroups (groupedDataAux acc d) k =
        match lookupGroups acc k with
        | some g => some (g ++ d.filter (fun s => getCompositionSignature s == k))
        | none =>
          if d.any (fun s => getCompositionSignature s == k)
          then some (d.filter (fun s => getCompositionSignature s == k)) else none := by
  intro d
  induction d with
  | nil =>
    intro acc k
    cases hacc : lookupGroups acc k <;> simp [groupedDataAux, hacc]
  | cons s t ih =>
    intro acc k
    show lookupGroups (groupedDataAux (insertGroup acc (getCompositionSignature s) s) t) k = _
    rw [ih, lookupGroups_insertGroup]
    by_cases hks : k = getCompositionSignature s
    · rw [if_pos hks]
      have hbeq : (getCompositionSignature s == k) = true := beq_iff_eq.mpr hks.symm
      cases hacc : lookupGroups acc k with
      | some g => simp [hacc, hbeq, List.filter_cons]
      | none => simp [hacc, hbeq, List.filter_cons, List.any_cons]
    · rw [if_neg hks]
      have hbeq : (getCompositionSignature s == k) = false :=
        beq_eq_false_iff_ne.mpr (fun hh => hks hh.symm)
      cases hacc : lookupGroups acc k with
      | some g => simp [hacc, hbeq, List.filter_cons]
      | none => simp [hacc, hbeq, List.filter_cons, List.any_cons]

theorem contains_eq_true_of_mem {l : List String} {x : String} (h : x ∈ l) :
    l.contains x = true := by
  simpa [List.contains] using List.elem_iff.mpr h

theorem contains_eq_false_of_not_mem {l : List String} {x : String} (h : x ∉ l) :
    l.contains x = false := by
  cases hc : l.contains x with
  | true => exact absurd (List.elem_iff.mp hc) h
  | false => rfl

theorem groupKeys_insertGroup (acc : Groups) (k2 : String) (s : Sample) :
    groupKeys (insertGroup acc k2 s) =
      if k2 ∈ groupKeys acc then groupKeys acc else groupKeys acc ++ [k2] := by
  induction acc with
  | nil => simp [insertGroup, groupKeys]
  | cons p t ih =>
    obtain ⟨a, v⟩ := p
    by_cases hak : a = k2
    · subst hak
      simp [insertGroup, groupKeys]
    · have hka : ¬k2 = a := fun h => hak h.symm
      have h1 : insertGroup ((a, v) :: t) k2 s = (a, v) :: insertGroup t k2 s := by
        simp [insertGroup, hak]
      rw [h1]
      have h2 : groupKeys ((a, v) :: insertGroup t k2 s) = a :: groupKeys (insertGroup t k2 s) :=
        rfl
      have h3 : groupKeys ((a, v) :: t) = a :: groupKeys t := rfl
      rw [h2, h3, ih]
      by_cases hm : k2 ∈ groupKeys t
      · rw [if_pos hm, if_pos (List.mem_cons_of_mem a hm)]
      · rw [if_neg hm, if_neg (by simp [hka, hm])]
        rfl

theorem firstSeenKeys_congr :
    ∀ (l : List String) (s1 s2 : List String),
      (∀ x, x ∈ s1 ↔ x ∈ s2) → firstSeenKeys s1 l = firstSeenKeys s2 l := by
  intro l
  induction l with
  | nil => intro s1 s2 _; rfl
  | cons k t ih =>
    intro s1 s2 h
    by_cases hm : k ∈ s1
    · have hm2 : k ∈ s2 := (h k).mp hm
      simp [firstSeenKeys, hm, hm2, ih s1 s2 h]
    · have hc1 := contains_eq_false_of_not_mem hm
      have hc2 := contains_eq_false_of_not_mem (fun hh => hm ((h k).mpr hh))
      simp only [firstSeenKeys, hc1, hc2, Bool.false_eq_true, if_false]
      rw [ih (k :: s1) (k :: s2) (by intro x; simp [h x])]

theorem groupKeys_groupedDataAux :
    ∀ (d : List Sample) (acc : Groups),
      groupKeys (groupedDataAux acc d) =
        groupKeys acc ++ firstSeenKeys (groupKeys acc) (d.map getCompositionSignature) := by
  intro d
  induction d with
  | nil => intro acc; simp [groupedDataAux, firstSeenKeys]
  | cons s t ih =>
    intro acc
    show groupKeys (groupedDataAux (insertGroup acc (getCompositionSignature s) s) t) = _
    rw [ih, groupKeys_insertGroup]
    by_cases hm : getCompositionSignature s ∈ groupKeys acc
    · rw [if_pos hm]
      simp [firstSeenKeys, hm]
    · rw [if_neg hm]
      have hc := contains_eq_false_of_not_mem hm
      simp only [List.map_cons, firstSeenKeys, hc, Bool.false_eq_true, if_false]
      rw [firstSeenKeys_congr (t.map getCompositionSignature)
        (groupKeys acc ++ [getCompositionSignature s])
        (getCompositionSignature s :: groupKeys acc)
        (by intro x; simp [or_comm])]
      simp

/-- Claim C9: grouping appends each sample to the group of its signature:
the group under a present key is exactly the input-ordered filter of the
data at that signature (so every sample is in exactly one group, in input
order), absent keys look up to nothing, and the key insertion order is the
first-seen order of the signatures; as a pure function of the sample
sequence the grouping is deterministic, so regrouping the same sequence
reproduces the identical mapping. -/
theorem grouping_partition_order (d : List Sample) :
    (∀ k, k ∈ d.map getCompositionSignature →
        lookupGroups (groupedData d) k =
          some (d.filter (fun s => getCompositionSignature s == k)))
    ∧ (∀ k, k ∉ d.map getCompositionSignature → lookupGroups (groupedData d) k = none)
    ∧ groupKeys (groupedData d) = firstSeenKeys [] (d.map getCompositionSignature) := by
  refine ⟨?_, ?_, ?_⟩
  · intro k hk
    have hany : d.any (fun s => getCompositionSignature s == k) = true := by
      rcases List.mem_map.mp hk with ⟨s, hs, rfl⟩
      exact List.any_eq_true.mpr ⟨s, hs, beq_self_eq_true _⟩
    simpa [groupedData, hany] using lookupGroups_groupedDataAux d [] k
  · intro k hk
    have hany : d.any (fun s => getCompositionSignature s == k) = false := by
      cases hc : d.any (fun s => getCompositionSignature s == k) with
      | true =>
        obtain ⟨s, hs, hbeq⟩ := List.any_eq_true.mp hc
        exact absurd (List.mem_map.mpr ⟨s, hs, beq_iff_eq.mp hbeq⟩) hk
      | false => rfl
    simpa [groupedData, hany] using lookupGroups_groupedDataAux d [] k
  · simpa [groupedData, groupKeys] using groupKeys_groupedDataAux d []

theorem jsOrQ_zero_right (q : ℚ) : jsOrQ q 0 = q := by
  by_cases h : q = 0 <;> simp [jsOrQ, h]

theorem sigPiece_zero : sigPiece 0 = fchars 0 := by
  rw [sigPiece, jsOrQ_zero_right, toFixed2Chars, if_neg (by norm_num)]
  have h : ⌊(0 : ℚ) * 100 + 1 / 2⌋ = 0 := by norm_num
  rw [h]
  rfl

theorem sig_mkPlainTemp (id : ℕ) (t : ℚ) :
    getCompositionSignature (mkPlainTemp id t) = zeroSig := by
  simp [getCompositionSignature, compFields, mkPlainTemp, sigPiece_zero, zeroSig]

theorem grouping_partition_order_witness :
    lookupGroups (groupedData [mkPlainTemp 1 5, mkPlainTemp 2 7]) zeroSig =
      some (([mkPlainTemp 1 5, mkPlainTemp 2 7]).filter
        (fun s => getCompositionSignature s == zeroSig))
    ∧ lookupGroups (groupedData [mkPlainTemp 1 5, mkPlainTemp 2 7]) "x" = none := by
  constructor
  · exact (grouping_partition_order _).1 zeroSig (by simp [sig_mkPlainTemp])
  · refine (grouping_partition_order _).2.1 "x" ?_
    simp only [List.map_cons, List.map_nil, sig_mkPlainTemp]
    decide

theorem mem_insertByTemp (x y : Sample) (l : List Sample) :
    y ∈ insertByTemp x l ↔ y = x ∨ y ∈ l := by
  induction l with
  | nil => simp [insertByTemp]
  | cons a t ih =>
    by_cases h : x.temperature < a.temperature
    · simp [insertByTemp, h]
    · simp only [insertByTemp, if_neg h, List.mem_cons, ih]
      constructor <;> (intro hh; tauto)

theorem insertByTemp_pairwise (x : Sample) (l : List Sample)
    (h : List.Pairwise (fun a b : Sample => a.temperature ≤ b.temperature) l) :
    List.Pairwise (fun a b : Sample => a.temperature ≤ b.temperature) (insertByTemp x l) := by
  induction l with
  | nil => simp [insertByTemp]
  | cons a t ih =>
    rcases List.pairwise_cons.mp h with ⟨ha, ht⟩
    by_cases hx : x.temperature < a.temperature
    · simp only [insertByTemp, if_pos hx]
      refine List.Pairwise.cons ?_ h
      intro b hb
      rcases List.mem_cons.mp hb with rfl | hb2
      · exact le_of_lt hx
      · exact le_trans (le_of_lt hx) (ha b hb2)
    · simp only [insertByTemp, if_neg hx]
      refine List.Pairwise.cons ?_ (ih ht)
      intro b hb
      rcases (mem_insertByTemp x b t).mp hb with rfl | hb2
      · exact not_lt.mp hx
      · exact ha b hb2

theorem insertByTemp_filter_ne (x : Sample) (l : List Sample) (t : ℚ)
    (h : x.temperature ≠ t) :
    (insertByTemp x l).filter (fun s => s.temperature == t)
      = l.filter (fun s => s.temperature == t) := by
  induction l with
  | nil => simp [insertByTemp, List.filter, beq_eq_false_iff_ne.mpr h]
  | cons a l2 ih =>
    by_cases hx : x.temperature < a.temperature
    · simp only [insertByTemp, if_pos hx]
      simp [List.filter_cons, beq_eq_false_iff_ne.mpr h]
    · simp only [insertByTemp, if_neg hx]
      simp [List.filter_cons, ih]

theorem insertByTemp_filter_eq (x : Sample) (l : List Sample)
    (hs : List.Pairwise (fun a b : Sample => a.temperature ≤ b.temperature) l) :
    (insertByTemp x l).filter (fun s => s.temperature == x.temperature)
      = l.filter (fun s => s.temperature == x.temperature) ++ [x] := by
  induction l with
  | nil => simp [insertByTemp, List.filter]
  | cons a l2 ih =>
    rcases List.pairwise_cons.mp hs with ⟨ha, ht⟩
    by_cases hx : x.temperature < a.temperature
    · simp only [insertByTemp, if_pos hx]
      have hall : ∀ b ∈ a :: l2, ¬b.temperature = x.temperature := by
        intro b hb
        rcases List.mem_cons.mp hb with rfl | hb2
        · intro hh
          rw [hh] at hx
          exact lt_irrefl _ hx
        · intro hh
          have hba := ha b hb2
          rw [hh] at hba
          exact absurd hx (not_lt.mpr hba)
      have hfil : (a :: l2).filter (fun s => s.temperature == x.temperature) = [] := by
        rw [List.filter_eq_nil_iff]
        intro b hb
        simpa using hall b hb
      simp [List.filter_cons, hfil]
    · simp only [insertByTemp, if_neg hx]
      simp only [List.filter_cons]
      by_cases hm : a.temperature = x.temperature
      · have hb : (a.temperature == x.temperature) = true := beq_iff_eq.mpr hm
        simp [hb, ih ht]
      · have hb : (a.temperature == x.temperature) = false := beq_eq_false_iff_ne.mpr hm
        simp [hb, ih ht]

theorem foldl_insert_pairwise :
    ∀ (l acc : List Sample),
      List.Pairwise (fun a b : Sample => a.temperature ≤ b.temperature) acc →
      List.Pairwise (fun a b : Sample => a.temperature ≤ b.temperature)
        (List.foldl (fun acc x => insertByTemp x acc) acc l) := by
  intro l
  induction l with
  | nil => intro acc h; simpa using h
  | cons x t ih => intro acc h; exact ih _ (insertByTemp_pairwise x acc h)

theorem foldl_insert_filter :
    ∀ (l acc : List Sample) (t : ℚ),
      List.Pairwise (fun a b : Sample => a.temperature ≤ b.temperature) acc →
      (List.foldl (fun acc x => insertByTemp x acc) acc l).filter
          (fun s => s.temperature == t)
        = acc.filter (fun s => s.temperature == t)
          ++ l.filter (fun s => s.temperature == t) := by
  intro l
  induction l with
  | nil => intro acc t h; simp
  | cons x l2 ih =>
    intro acc t h
    rw [List.foldl_cons, ih _ t (insertByTemp_pairwise x acc h)]
    by_cases hx : x.temperature = t
    · subst hx
      rw [insertByTemp_filter_eq x acc h]
      simp [List.filter_cons]
    · rw [insertByTemp_filter_ne x acc t hx]
      simp [List.filter_cons, beq_eq_false_iff_ne.mpr hx]

/-- Claim C4: projection returns the selected group's samples sorted
ascending by temperature with a stable sort (the sorted output is ordered by
temperature and, for every temperature, preserves the group's original
sublist of samples at that temperature), and returns the empty sequence when
the signature is absent from the grouping. -/
theorem projection_sorted_stable (gs : Groups) (sel : String) :
    (lookupGroups gs sel = none → currentData gs sel = [])
    ∧ (∀ g, sel ≠ "" → lookupGroups gs sel = some g →
        currentData gs sel = sortByTemp g
        ∧ List.Pairwise (fun a b : Sample => a.temperature ≤ b.temperature) (sortByTemp g)
        ∧ ∀ t, (sortByTemp g).filter (fun s => s.temperature == t)
            = g.filter (fun s => s.temperature == t)) := by
  constructor
  · intro h
    by_cases hsel : sel = ""
    · simp [currentData, hsel]
    · simp [currentData, hsel, h]
  · intro g hsel hl
    refine ⟨by simp [currentData, hsel, hl], foldl_insert_pairwise g [] (by simp), ?_⟩
    intro t
    simpa [sortByTemp] using foldl_insert_filter g [] t (by simp)

theorem projection_sorted_stable_witness :
    currentData exGroups "g"
      = sortByTemp [mkPlainTemp 1 1450, mkPlainTemp 2 1420, mkPlainTemp 3 1450]
    ∧ List.Pairwise (fun a b : Sample => a.temperature ≤ b.temperature)
        (sortByTemp [mkPlainTemp 1 1450, mkPlainTemp 2 1420, mkPlainTemp 3 1450])
    ∧ sortByTemp [mkPlainTemp 1 1450, mkPlainTemp 2 1420, mkPlainTemp 3 1450]
        = [mkPlainTemp 2 1420, mkPlainTemp 1 1450, mkPlainTemp 3 1450] := by
  have h := (projection_sorted_stable exGroups "g").2
    [mkPlainTemp 1 1450, mkPlainTemp 2 1420, mkPlainTemp 3 1450] (by decide) (by decide)
  exact ⟨h.1, h.2.1, by decide⟩

theorem digitCh_inj : ∀ a, a < 10 → ∀ b, b < 10 → digitCh a = digitCh b → a = b := by
  decide

theorem digitCh_ne_dash : ∀ d, d < 10 → digitCh d ≠ '-' := by
  decide

theorem natCharsAux_zero (f : ℕ) : natCharsAux f 0 = [] := by
  cases f <;> simp [natCharsAux]

theorem natCharsAux_congr :
    ∀ (n f g : ℕ), n ≤ f → n ≤ g → natCharsAux f n = natCharsAux g n := by
  intro n
  induction n using Nat.strong_induction_on with
  | _ n ih =>
    intro f g hf hg
    rcases Nat.eq_zero_or_pos n with rfl | hn
    · rw [natCharsAux_zero, natCharsAux_zero]
    · have hne : n ≠ 0 := by omega
      obtain ⟨f2, rfl⟩ : ∃ f2, f = f2 + 1 := ⟨f - 1, by omega⟩
      obtain ⟨g2, rfl⟩ : ∃ g2, g = g2 + 1 := ⟨g - 1, by omega⟩
      simp only [natCharsAux, if_neg hne]
      have hd : n / 10 < n := Nat.div_lt_self hn (by norm_num)
      rw [ih (n / 10) hd f2 g2 (by omega) (by omega)]

theorem natCharsCore_succ (n : ℕ) (h : n ≠ 0) :
    natCharsCore n = natCharsCore (n / 10) ++ [digitCh (n % 10)] := by
  obtain ⟨m, rfl⟩ : ∃ m, n = m + 1 := ⟨n - 1, by omega⟩
  show natCharsAux (m + 1) (m + 1) = natCharsCore ((m + 1) / 10) ++ [digitCh ((m + 1) % 10)]
  simp only [natCharsAux, if_neg h]
  rw [natCharsAux_congr ((m + 1) / 10) m ((m + 1) / 10) (by omega) (le_refl _)]
  rfl

theorem natCharsCore_eq_nil (n : ℕ) : natCharsCore n = [] ↔ n = 0 := by
  constructor
  · intro h
    by_contra hn
    rw [natCharsCore_succ n hn] at h
    simp at h
  · rintro rfl
    rfl

theorem natCharsCore_inj : ∀ m n : ℕ, natCharsCore m = natCharsCore n → m = n := by
  intro m
  induction m using Nat.strong_induction_on with
  | _ m ih =>
    intro n h
    rcases Nat.eq_zero_or_pos m with rfl | hm
    · exact ((natCharsCore_eq_nil n).mp h.symm).symm
    rcases Nat.eq_zero_or_pos n with rfl | hn
    · exact absurd ((natCharsCore_eq_nil m).mp h) (by omega)
    rw [natCharsCore_succ m (by omega), natCharsCore_succ n (by omega)] at h
    obtain ⟨h1, h2⟩ := List.append_inj' h (by simp)
    have e2 : m % 10 = n % 10 :=
      digitCh_inj _ (by omega) _ (by omega) (by simpa using h2)
    have e1 : m / 10 = n / 10 := ih (m / 10) (by omega) _ h1
    omega

theorem natChars_inj (m n : ℕ) (h : natChars m = natChars n) : m = n := by
  unfold natChars at h
  by_cases hm : m = 0 <;> by_cases hn : n = 0
  · omega
  · exfalso
    rw [if_pos hm, if_neg hn, natCharsCore_succ n hn] at h
    have h3 : natCharsCore (n / 10) ++ [digitCh (n % 10)] = [] ++ ['0'] := by
      simpa using h.symm
    obtain ⟨h1, h2⟩ := List.append_inj' h3 (by simp)
    have hz : n % 10 = 0 := digitCh_inj _ (by omega) 0 (by omega) (by simpa using h2)
    have hz2 : n / 10 = 0 := (natCharsCore_eq_nil _).mp h1
    omega
  · exfalso
    rw [if_neg hm, if_pos hn, natCharsCore_succ m hm] at h
    have h3 : natCharsCore (m / 10) ++ [digitCh (m % 10)] = [] ++ ['0'] := by
      simpa using h
    obtain ⟨h1, h2⟩ := List.append_inj' h3 (by simp)
    have hz : m % 10 = 0 := digitCh_inj _ (by omega) 0 (by omega) (by simpa using h2)
    have hz2 : m / 10 = 0 := (natCharsCore_eq_nil _).mp h1
    omega
  · rw [if_neg hm, if_neg hn] at h
    exact natCharsCore_inj _ _ h

theorem fchars_inj (a b : ℕ) (h : fchars a = fchars b) : a = b := by
  unfold fchars at h
  obtain ⟨h1, h2⟩ := List.append_inj' h (by simp)
  have hdiv : a / 100 = b / 100 := natChars_inj _ _ h1
  simp only [List.cons.injEq, and_true] at h2
  have e1 : a % 100 / 10 = b % 100 / 10 :=
    digitCh_inj _ (by omega) _ (by omega) h2.2.1
  have e2 : a % 10 = b % 10 :=
    digitCh_inj _ (by omega) _ (by omega) h2.2.2
  omega

theorem noDash_natCharsAux : ∀ (f n : ℕ), '-' ∉ natCharsAux f n := by
  intro f
  induction f with
  | zero => intro n; simp [natCharsAux]
  | succ f ih =>
    intro n
    by_cases hn : n = 0
    · simp [natCharsAux, hn]
    · simp only [natCharsAux, if_neg hn]
      intro hmem
      rcases List.mem_append.mp hmem with hmem2 | hmem2
      · exact ih (n / 10) hmem2
      · have : '-' = digitCh (n % 10) := by simpa using hmem2
        exact digitCh_ne_dash (n % 10) (by omega) this.symm

theorem noDash_natChars (n : ℕ) : '-' ∉ natChars n := by
  unfold natChars
  by_cases hn : n = 0
  · simp [hn]
  · rw [if_neg hn]
    exact noDash_natCharsAux n n

theorem noDash_fchars (n : ℕ) : '-' ∉ fchars n := by
  unfold fchars
  intro hmem
  rcases List.mem_append.mp hmem with hmem2 | hmem2
  · exact noDash_natChars (n / 100) hmem2
  · rcases List.mem_cons.mp hmem2 with hh | hmem3
    · exact absurd hh (by decide)
    · rcases List.mem_cons.mp hmem3 with hh | hmem4
      · exact digitCh_ne_dash _ (by omega) hh.symm
      · have hh : '-' = digitCh (n % 10) := by simpa using hmem4
        exact digitCh_ne_dash _ (by omega) hh.symm

theorem dash_split :
    ∀ (p q r s : List Char), '-' ∉ p → '-' ∉ q →
      p ++ '-' :: r = q ++ '-' :: s → p = q ∧ r = s := by
  intro p
  induction p with
  | nil =>
    intro q r s _ hq h
    cases q with
    | nil => simpa using h
    | cons b bs =>
      exfalso
      simp only [List.nil_append, List.cons_append, List.cons.injEq] at h
      exact hq (h.1 ▸ List.mem_cons_self b bs)
  | cons a as ih =>
    intro q r s hp hq h
    cases q with
    | nil =>
      exfalso
      simp only [List.nil_append, List.cons_append, List.cons.injEq] at h
      exact hp (h.1 ▸ List.mem_cons_self a as)
    | cons b bs =>
      simp only [List.cons_append, List.cons.injEq] at h
      obtain ⟨rfl, h2⟩ := h
      obtain ⟨h3, h4⟩ := ih bs r s
        (fun hm => hp (List.mem_cons_of_mem a hm))
        (fun hm => hq (List.mem_cons_of_mem a hm)) h2
      exact ⟨by rw [h3], h4⟩

theorem joinDash_inj :
    ∀ (ps qs : List (List Char)), ps.length = qs.length →
      (∀ p ∈ ps, '-' ∉ p) → (∀ q ∈ qs, '-' ∉ q) →
      joinDash ps = joinDash qs → ps = qs := by
  intro ps
  induction ps with
  | nil =>
    intro qs hlen _ _ _
    cases qs with
    | nil => rfl
    | cons q qt => simp at hlen
  | cons p pt ihp =>
    intro qs hlen hps hqs h
    cases qs with
    | nil => simp at hlen
    | cons q qt =>
      cases pt with
      | nil =>
        cases qt with
        | nil =>
          simp only [joinDash] at h
          rw [h]
        | cons q2 qt2 => simp at hlen
      | cons p2 pt2 =>
        cases qt with
        | nil => simp at hlen
        | cons q2 qt2 =>
          have hj : p ++ '-' :: joinDash (p2 :: pt2) = q ++ '-' :: joinDash (q2 :: qt2) := h
          obtain ⟨h1, h2⟩ := dash_split p q _ _
            (hps p (List.mem_cons_self p _)) (hqs q (List.mem_cons_self q _)) hj
          have htl : (p2 :: pt2) = (q2 :: qt2) :=
            ihp (q2 :: qt2) (by simpa using hlen)
              (fun x hx => hps x (List.mem_cons_of_mem p hx))
              (fun x hx => hqs x (List.mem_cons_of_mem q hx)) h2
          rw [h1, htl]

theorem round2_nonneg (q : ℚ) (h : 0 ≤ q) : 0 ≤ round2 q := by
  rw [round2, if_neg (not_lt.mpr h)]
  exact Int.floor_nonneg.mpr (by linarith)

theorem toFixed2Chars_nonneg (q : ℚ) (h : 0 ≤ q) :
    toFixed2Chars q = fchars (round2 q).toNat := by
  rw [toFixed2Chars, if_neg (not_lt.mpr h), round2, if_neg (not_lt.mpr h)]

theorem sigPiece_eq_iff (x y : ℚ) (hx : 0 ≤ x) (hy : 0 ≤ y) :
    sigPiece x = sigPiece y ↔ round2 x = round2 y := by
  rw [sigPiece, sigPiece, jsOrQ_zero_right, jsOrQ_zero_right,
    toFixed2Chars_nonneg x hx, toFixed2Chars_nonneg y hy]
  constructor
  · intro h
    have h2 := fchars_inj _ _ h
    have h3 := round2_nonneg x hx
    have h4 := round2_nonneg y hy
    omega
  · intro h
    rw [h]

theorem sigPiece_noDash (x : ℚ) (hx : 0 ≤ x) : '-' ∉ sigPiece x := by
  rw [sigPiece, jsOrQ_zero_right, toFixed2Chars_nonneg x hx]
  exact noDash_fchars _

theorem string_mk_inj (u v : List Char) : String.mk u = String.mk v ↔ u = v :=
  ⟨fun h => by injection h, fun h => by rw [h]⟩

theorem sig_eq_iff (a b : Sample) (hA : compNonneg a) (hB : compNonneg b) :
    getCompositionSignature a = getCompositionSignature b ↔ roundedCompEq a b := by
  obtain ⟨a1, a2, a3, a4, a5, a6, a7, a8⟩ := hA
  obtain ⟨b1, b2, b3, b4, b5, b6, b7, b8⟩ := hB
  rw [getCompositionSignature, getCompositionSignature, string_mk_inj]
  simp only [compFields, List.map]
  constructor
  · intro h
    have hl := joinDash_inj
      [sigPiece a.SiO2, sigPiece a.Al2O3, sigPiece a.FexOy, sigPiece a.Na2O,
        sigPiece a.K2O, sigPiece a.CaO, sigPiece a.MgO, sigPiece a.TiO2]
      [sigPiece b.SiO2, sigPiece b.Al2O3, sigPiece b.FexOy, sigPiece b.Na2O,
        sigPiece b.K2O, sigPiece b.CaO, sigPiece b.MgO, sigPiece b.TiO2]
      rfl
      (by
        intro p hp
        simp only [List.mem_cons, List.not_mem_nil, or_false] at hp
        rcases hp with rfl | rfl | rfl | rfl | rfl | rfl | rfl | rfl
        exacts [sigPiece_noDash _ a1, sigPiece_noDash _ a2, sigPiece_noDash _ a3,
          sigPiece_noDash _ a4, sigPiece_noDash _ a5, sigPiece_noDash _ a6,
          sigPiece_noDash _ a7, sigPiece_noDash _ a8])
      (by
        intro p hp
        simp only [List.mem_cons, List.not_mem_nil, or_false] at hp
        rcases hp with rfl | rfl | rfl | rfl | rfl | rfl | rfl | rfl
        exacts [sigPiece_noDash _ b1, sigPiece_noDash _ b2, sigPiece_noDash _ b3,
          sigPiece_noDash _ b4, sigPiece_noDash _ b5, sigPiece_noDash _ b6,
          sigPiece_noDash _ b7, sigPiece_noDash _ b8])
      h
    simp only [List.cons.injEq, and_true] at hl
    obtain ⟨e1, e2, e3, e4, e5, e6, e7, e8⟩ := hl
    exact ⟨(sigPiece_eq_iff _ _ a1 b1).mp e1, (sigPiece_eq_iff _ _ a2 b2).mp e2,
      (sigPiece_eq_iff _ _ a3 b3).mp e3, (sigPiece_eq_iff _ _ a4 b4).mp e4,
      (sigPiece_eq_iff _ _ a5 b5).mp e5, (sigPiece_eq_iff _ _ a6 b6).mp e6,
      (sigPiece_eq_iff _ _ a7 b7).mp e7, (sigPiece_eq_iff _ _ a8 b8).mp e8⟩
  · intro h
    obtain ⟨e1, e2, e3, e4, e5, e6, e7, e8⟩ := h
    rw [(sigPiece_eq_iff _ _ a1 b1).mpr e1, (sigPiece_eq_iff _ _ a2 b2).mpr e2,
      (sigPiece_eq_iff _ _ a3 b3).mpr e3, (sigPiece_eq_iff _ _ a4 b4).mpr e4,
      (sigPiece_eq_iff _ _ a5 b5).mpr e5, (sigPiece_eq_iff _ _ a6 b6).mpr e6,
      (sigPiece_eq_iff _ _ a7 b7).mpr e7, (sigPiece_eq_iff _ _ a8 b8).mpr e8]

theorem lookupGroups_groupedData_eq (d : List Sample) (k : String) :
    lookupGroups (groupedData d) k =
      if d.any (fun s => getCompositionSignature s == k)
      then some (d.filter (fun s => getCompositionSignature s == k)) else none := by
  have h0 : lookupGroups ([] : Groups) k = none := rfl
  simpa [groupedData, h0] using lookupGroups_groupedDataAux d [] k

theorem sameGroup_iff_sig (d : List Sample) (a b : Sample) (ha : a ∈ d) (hb : b ∈ d) :
    sameGroup d a b ↔ getCompositionSignature a = getCompositionSignature b := by
  constructor
  · rintro ⟨k, g, hl, hag, hbg⟩
    rw [lookupGroups_groupedData_eq] at hl
    by_cases hany : d.any (fun s => getCompositionSignature s == k)
    · rw [if_pos hany] at hl
      have hg : d.filter (fun s => getCompositionSignature s == k) = g := by
        injection hl
      rw [← hg] at hag hbg
      have ha2 := (List.mem_filter.mp hag).2
      have hb2 := (List.mem_filter.mp hbg).2
      rw [beq_iff_eq.mp ha2, beq_iff_eq.mp hb2]
    · rw [if_neg hany] at hl
      exact absurd hl (by simp)
  · intro h
    refine ⟨getCompositionSignature a,
      d.filter (fun s => getCompositionSignature s == getCompositionSignature a), ?_, ?_, ?_⟩
    · have hany : (d.any fun s => getCompositionSignature s == getCompositionSignature a)
          = true :=
        List.any_eq_true.mpr ⟨a, ha, beq_self_eq_true _⟩
      rw [lookupGroups_groupedData_eq, if_pos hany]
    · exact List.mem_filter.mpr ⟨ha, beq_self_eq_true _⟩
    · exact List.mem_filter.mpr ⟨hb, beq_iff_eq.mpr h.symm⟩

/-- Claim C3: two samples of the data set are placed in the same group by the
grouper exactly when all eight composition fields rounded to 2 decimal
digits coincide (stated for the non-negative weight-percent range of the
data model; the witness instantiates the 53.500001 vs 53.4999994 example,
which differs only beyond the second decimal place and lands in one group). -/
theorem same_group_iff_rounded (d : List Sample) (a b : Sample)
    (ha : a ∈ d) (hb : b ∈ d) (hA : compNonneg a) (hB : compNonneg b) :
    sameGroup d a b ↔ roundedCompEq a b := by
  rw [sameGroup_iff_sig d a b ha hb, sig_eq_iff a b hA hB]

theorem same_group_iff_rounded_witness :
    compNonneg exSampleP ∧ compNonneg exSampleQ
    ∧ sameGroup exPairData exSampleP exSampleQ := by
  have hP : compNonneg exSampleP := by
    refine ⟨?_, ?_, ?_, ?_, ?_, ?_, ?_, ?_⟩ <;> norm_num [exSampleP]
  have hQ : compNonneg exSampleQ := by
    refine ⟨?_, ?_, ?_, ?_, ?_, ?_, ?_, ?_⟩ <;> norm_num [exSampleQ]
  refine ⟨hP, hQ, ?_⟩
  refine (same_group_iff_rounded exPairData exSampleP exSampleQ
    (by simp [exPairData]) (by simp [exPairData]) hP hQ).mpr ?_
  refine ⟨?_, ?_, ?_, ?_, ?_, ?_, ?_, ?_⟩ <;> norm_num [exSampleP, exSampleQ, round2]
